import Mathlib

/-!
Verification of the CLIP-GENERATOR backend against its natural-language
specification.

The development shallow-embeds the parts of the Python source that the
claims are about:

* `src/backend/gemini_key_manager.py` — credential pool manager
  (`GeminiKeyManager`): error classification, rotation, failure marking
  and the retry executor `execute_with_retry`.
* `src/backend/gemini_processor.py` — the scoring / aggregation step of
  `process_video_for_clips` (energy attachment, min–max normalization,
  combined score, stable descending sort, truncation) and its
  progress-callback trace.
* `src/backend/main.py` — the job orchestrator `process_video_task`
  (progress checkpoints, terminal states, error handling).

Modelling conventions:
* Python strings are `List Char`; lowering is `Char.toLower` (all the
  relevant patterns are ASCII).
* Python floats are modelled as exact rationals `ℚ`.
* Wall-clock time is abstracted: cooldown bookkeeping (`cooldown_until`)
  and its expiry (`_check_cooldowns`) are not in the model, so a key is
  simply `healthy : Bool`; none of the claims under scrutiny concern
  cooldown expiry.
* The external world (SDK calls, ffmpeg, downloads, storage) is an
  explicit oracle: each effectful collaborator is a field of an
  environment record saying whether / how the call succeeds.
-/

namespace ClipGen

/-- Python's `needle in haystack` prefix test, over `List Char`:
`startsWith hay needle` is true when `needle` is an initial segment of
`hay`. -/
def startsWith : List Char → List Char → Bool
  | _, [] => true
  | [], _ :: _ => false
  | h :: hs, n :: ns => (h == n) && startsWith hs ns

/-- Python's substring containment `needle in hay` over `List Char`. -/
def containsSub : List Char → List Char → Bool
  | [], n => n.isEmpty
  | h :: t, n => startsWith (h :: t) n || containsSub t n

/-- Python's `str.lower()` restricted to the ASCII range used by the
error patterns. -/
def lowerStr (s : List Char) : List Char := s.map Char.toLower

/-- `ROTATABLE_ERROR_PATTERNS` from `gemini_key_manager.py` lines 43–50,
verbatim (note the underscores in the first two patterns). -/
def rotatablePatterns : List (List Char) :=
  ["resource_exhausted".toList, "rate_limit_exceeded".toList, "quota".toList,
   "rate limit".toList, "too many requests".toList, "429".toList]

/-- `GeminiKeyManager.is_rotatable_error` (lines 139–148): lowercase the
error message, return true if it contains `'429'` or any pattern of
`ROTATABLE_ERROR_PATTERNS`. -/
def isRotatableError (err : List Char) : Bool :=
  let e := lowerStr err
  containsSub e ("429".toList) || rotatablePatterns.any (fun p => containsSub e p)

/-- The classification exactly as the spec sentence words it: rotatable
iff the lowered message contains a 429 marker or one of the substrings
"resource exhausted", "rate limit", "quota", "too many requests". -/
def specRotatable (err : List Char) : Bool :=
  let e := lowerStr err
  containsSub e ("429".toList) ||
  containsSub e ("resource exhausted".toList) ||
  containsSub e ("rate limit".toList) ||
  containsSub e ("quota".toList) ||
  containsSub e ("too many requests".toList)

/-- The amended classification: rotatable iff the lowered message
contains "429", "resource_exhausted", "rate_limit_exceeded", "quota",
"rate limit" or "too many requests". -/
def amendedRotatable (err : List Char) : Bool :=
  let e := lowerStr err
  containsSub e ("429".toList) ||
  containsSub e ("resource_exhausted".toList) ||
  containsSub e ("rate_limit_exceeded".toList) ||
  containsSub e ("quota".toList) ||
  containsSub e ("rate limit".toList) ||
  containsSub e ("too many requests".toList)

/-- `KeyState` (gemini_key_manager.py lines 61–69) without the clock
fields (`cooldown_until`) and the opaque `client`; `healthy` is
`is_healthy`. -/
structure KeyState where
  healthy : Bool
  lastError : Option (List Char)
  errorCount : Nat
deriving Repr, DecidableEq

instance : Inhabited KeyState := ⟨⟨false, none, 0⟩⟩

/-- The manager state: `_keys` and `_current_index`. -/
structure Manager where
  keys : List KeyState
  currentIndex : Nat
deriving Repr, DecidableEq

/-- `self._keys[i].is_healthy`, with out-of-range reads defaulting to an
unhealthy key (all reads in the source are in range). -/
def keyHealthy (ks : List KeyState) (i : Nat) : Bool :=
  (ks.getD i default).healthy

/-- The `while attempts < len(self._keys)` search of
`_rotate_to_next_healthy_key` (lines 230–245): advance the index
cyclically, stop at the first healthy key; `start` is the saved
`start_index` restored on failure. The fuel is the remaining number of
loop iterations. -/
def rotGo (ks : List KeyState) (start : Nat) : Nat → Nat → Nat × Bool
  | _, 0 => (start, false)
  | idx, fuel + 1 =>
    let idx' := (idx + 1) % ks.length
    if keyHealthy ks idx' then (idx', true) else rotGo ks start idx' fuel

/-- `GeminiKeyManager._rotate_to_next_healthy_key` (lines 230–245):
at most `len(self._keys)` steps; on success the index is the first
healthy key strictly after the saved index in cyclic order; on failure
the index is restored. (`_check_cooldowns` is the identity here, time
being abstracted.) -/
def rotateToNextHealthy (m : Manager) : Manager × Bool :=
  let r := rotGo m.keys m.currentIndex m.currentIndex m.keys.length
  ({ m with currentIndex := r.1 }, r.2)

/-- Mark the key at index `i` unhealthy recording the error, as in
`rotate_on_error` lines 209–213 (the cooldown stamp is elided with the
clock). -/
def markUnhealthy (ks : List KeyState) (i : Nat) (msg : List Char) : List KeyState :=
  ks.set i
    { healthy := false
      lastError := some msg
      errorCount := (ks.getD i default).errorCount + 1 }

/-- `GeminiKeyManager.rotate_on_error` (lines 185–228): on an empty pool
return false; if the current key is already unhealthy, only attempt the
rotation (idempotency branch, no marking); otherwise mark the current
key unhealthy and rotate. -/
def rotateOnError (m : Manager) (msg : List Char) : Manager × Bool :=
  if m.keys.isEmpty then (m, false)
  else if !(keyHealthy m.keys m.currentIndex) then rotateToNextHealthy m
  else
    rotateToNextHealthy { m with keys := markUnhealthy m.keys m.currentIndex msg }

/-- `GeminiKeyManager._get_healthy_key` as used by `get_current_client`
(lines 159–183): prefer the current key when healthy, otherwise move the
index to the first healthy key; `none` when no key is healthy. The
returned index identifies the key whose client is handed out. -/
def getCurrentClient (m : Manager) : Manager × Option Nat :=
  if !m.keys.isEmpty && keyHealthy m.keys m.currentIndex then (m, some m.currentIndex)
  else
    match (List.range m.keys.length).find? (fun i => keyHealthy m.keys i) with
    | some i => ({ m with currentIndex := i }, some i)
    | none => (m, none)

/-- Outcome of one invocation of the user-supplied operation. -/
inductive OpOutcome (α : Type) where
  | ok (v : α)
  | err (msg : List Char)
deriving Repr, DecidableEq

/-- Observable outcome of `execute_with_retry`: a returned value, the
`RuntimeError("No healthy Gemini API keys available")` raise, a
re-raised operation error, or the final
`RuntimeError("All Gemini keys exhausted")` raise (only reachable with
`max_retries = 0`). -/
inductive RetryOutcome (α : Type) where
  | ok (v : α)
  | noHealthy
  | raised (msg : List Char)
  | exhausted
deriving Repr, DecidableEq

/-- The `for attempt in range(max_retries)` loop body of
`GeminiKeyManager.execute_with_retry` (lines 288–334).  The operation is
given the attempt number and the index of the key whose client it
receives.  `lastErr` threads `last_error`; when the fuel runs out the
code raises `last_error or RuntimeError(...)`. -/
def retryLoop {α : Type} (op : Nat → Nat → OpOutcome α) :
    Nat → Option (List Char) → Manager → Nat → Manager × RetryOutcome α
  | _, lastErr, m, 0 =>
    (m, match lastErr with
        | some msg => RetryOutcome.raised msg
        | none => RetryOutcome.exhausted)
  | attempt, _, m, fuel + 1 =>
    match getCurrentClient m with
    | (m', none) => (m', RetryOutcome.noHealthy)
    | (m', some idx) =>
      match op attempt idx with
      | OpOutcome.ok v => (m', RetryOutcome.ok v)
      | OpOutcome.err msg =>
        if isRotatableError msg then
          match rotateOnError m' msg with
          | (m'', true) => retryLoop op (attempt + 1) (some msg) m'' fuel
          | (m'', false) => (m'', RetryOutcome.raised msg)
        else (m', RetryOutcome.raised msg)

/-- `GeminiKeyManager.execute_with_retry` (lines 288–334). -/
def executeWithRetry {α : Type} (m : Manager) (op : Nat → Nat → OpOutcome α)
    (maxRetries : Nat := 3) : Manager × RetryOutcome α :=
  retryLoop op 0 none m maxRetries

/-- The retry algorithm exactly as the spec sentence words it, as a
relation between a loop state (remaining attempts, attempt counter,
last seen error, pool state) and the final observable outcome:

* obtain the active credential; if none is healthy, raise
  `CredentialExhausted` (`noHealthy`);
* invoke the operation; on success return its result;
* on a NonRotatable failure raise it immediately;
* on a Rotatable failure call `markFailure`; if rotation succeeded
  continue with the next attempt, otherwise raise that error;
* after exhausting the attempts with only rotatable failures, raise the
  last seen error. -/
inductive RetrySpec {α : Type} (op : Nat → Nat → OpOutcome α) :
    Nat → Nat → Option (List Char) → Manager → Manager × RetryOutcome α → Prop
  | lastSeen (a : Nat) (msg : List Char) (m : Manager) :
      RetrySpec op 0 a (some msg) m (m, RetryOutcome.raised msg)
  | credExhausted (f a : Nat) (le : Option (List Char)) (m m' : Manager) :
      getCurrentClient m = (m', none) →
      RetrySpec op (f + 1) a le m (m', RetryOutcome.noHealthy)
  | success (f a : Nat) (le : Option (List Char)) (m m' : Manager) (idx : Nat) (v : α) :
      getCurrentClient m = (m', some idx) → op a idx = OpOutcome.ok v →
      RetrySpec op (f + 1) a le m (m', RetryOutcome.ok v)
  | nonRotatable (f a : Nat) (le : Option (List Char)) (m m' : Manager)
      (idx : Nat) (msg : List Char) :
      getCurrentClient m = (m', some idx) → op a idx = OpOutcome.err msg →
      isRotatableError msg = false →
      RetrySpec op (f + 1) a le m (m', RetryOutcome.raised msg)
  | rotationFailed (f a : Nat) (le : Option (List Char)) (m m' m'' : Manager)
      (idx : Nat) (msg : List Char) :
      getCurrentClient m = (m', some idx) → op a idx = OpOutcome.err msg →
      isRotatableError msg = true → rotateOnError m' msg = (m'', false) →
      RetrySpec op (f + 1) a le m (m'', RetryOutcome.raised msg)
  | rotationOk (f a : Nat) (le : Option (List Char)) (m m' m'' : Manager)
      (idx : Nat) (msg : List Char) (res : Manager × RetryOutcome α) :
      getCurrentClient m = (m', some idx) → op a idx = OpOutcome.err msg →
      isRotatableError msg = true → rotateOnError m' msg = (m'', true) →
      RetrySpec op f (a + 1) (some msg) m'' res →
      RetrySpec op (f + 1) a le m res

/-!  ## The ranking / aggregation step of `process_video_for_clips`
(`gemini_processor.py` lines 612–684).  Floats are exact rationals;
the field `stop` models the Python dict key `end`. -/

/-- A candidate segment as the dict flowing through
`process_video_for_clips`; score fields start at 0 and are assigned by
the pipeline stages below before being read. -/
structure Seg where
  start : ℚ
  stop : ℚ
  viralityScore : ℚ
  energyScore : ℚ := 0
  energyNorm : ℚ := 0
  hypeScore : ℚ := 0
  sceneProximity : ℚ := 0
  combinedScore : ℚ := 0
deriving Repr, DecidableEq

/-- An RMS energy window from `ffmpeg_helpers.get_top_energy_windows`:
`{start, end, rms}`. -/
structure Window where
  wstart : ℚ
  wstop : ℚ
  rms : ℚ
deriving Repr, DecidableEq

/-- An audio hype event from
`emotion_detector.detect_audio_hype_events`: `{start, end, score}`. -/
structure HypeEvent where
  hstart : ℚ
  hstop : ℚ
  score : ℚ
deriving Repr, DecidableEq

/-- Lines 637–657: attach `energy_score` (mean RMS of overlapping
windows, 0 if none), `hype_score` (mean score of overlapping events, 0
if none) and `scene_proximity` (1 when some scene timestamp lies within
2 s of the segment, else 0) to one segment. -/
def attachScores (windows : List Window) (hypes : List HypeEvent)
    (scenes : List ℚ) (s : Seg) : Seg :=
  let overlaps := windows.filter (fun w => decide (w.wstart < s.stop) && decide (s.start < w.wstop))
  let energy : ℚ := if overlaps.isEmpty then 0
    else (overlaps.map (·.rms)).sum / (overlaps.length : ℚ)
  let hypeOverlaps := hypes.filter (fun e => decide (e.hstart < s.stop) && decide (s.start < e.hstop))
  let hype : ℚ := if hypeOverlaps.isEmpty then 0
    else (hypeOverlaps.map (·.score)).sum / (hypeOverlaps.length : ℚ)
  let prox : ℚ := if scenes.any (fun st => decide (s.start - 2 ≤ st) && decide (st ≤ s.stop + 2))
    then 1 else 0
  { s with energyScore := energy, hypeScore := hype, sceneProximity := prox }

/-- Lines 659–671: normalize `energy_score` into `energy_norm`.  The
source guards on `energy_values` being nonempty with `max > 0`, then
divides by `max - min` when positive, else writes 0. -/
def normalizeEnergy (segs : List Seg) : List Seg :=
  match segs.map (·.energyScore) with
  | [] => segs.map (fun s => { s with energyNorm := 0 })
  | e :: rest =>
    let maxE := rest.foldl max e
    let minE := rest.foldl min e
    if 0 < maxE then
      segs.map (fun s =>
        if 0 < maxE - minE then { s with energyNorm := (s.energyScore - minE) / (maxE - minE) }
        else { s with energyNorm := 0 })
    else segs.map (fun s => { s with energyNorm := 0 })

/-- The value `normalizeEnergy` assigns to `energy_norm` for a
candidate with energy score `e`, as a standalone function of the energy
multiset (used to state the normalization characterization). -/
def normVal (segs : List Seg) (e : ℚ) : ℚ :=
  match segs.map (·.energyScore) with
  | [] => 0
  | e0 :: rest =>
    let maxE := rest.foldl max e0
    let minE := rest.foldl min e0
    if 0 < maxE then
      if 0 < maxE - minE then (e - minE) / (maxE - minE) else 0
    else 0

/-- The claim's wording of the normalization: plain min–max of the
multiset of energy scores into `[0,1]`, with 0 everywhere when
`max = min`. -/
def specMinMaxNorm (es : List ℚ) (e : ℚ) : ℚ :=
  match es with
  | [] => 0
  | a :: rest =>
    let mx := rest.foldl max a
    let mn := rest.foldl min a
    if mx = mn then 0 else (e - mn) / (mx - mn)

/-- Lines 673–682: `combined_score = virality_score * (1 + energy_norm
+ 0.5 * hype_score + 0.3 * scene_proximity)` (float literals as exact
rationals). -/
def computeCombined (segs : List Seg) : List Seg :=
  segs.map (fun s =>
    { s with combinedScore :=
        s.viralityScore * (1 + s.energyNorm + (1/2 : ℚ) * s.hypeScore
          + (3/10 : ℚ) * s.sceneProximity) })

/-- Stable descending insertion: `c` is placed before the first element
whose `combined_score` does not exceed `c`'s, so earlier candidates win
ties — the extensional behaviour of Python's stable
`sorted(..., reverse=True)`. -/
def insertDesc (c : Seg) : List Seg → List Seg
  | [] => [c]
  | x :: xs =>
    if x.combinedScore ≤ c.combinedScore then c :: x :: xs
    else x :: insertDesc c xs

/-- `sorted(segments, key=lambda x: x.get('combined_score', 0),
reverse=True)` — a stable descending sort by `combined_score`. -/
def sortByCombinedDesc : List Seg → List Seg
  | [] => []
  | x :: xs => insertDesc x (sortByCombinedDesc xs)

/-- Line 684: sort descending by combined score and truncate with
`[:num_clips]`. -/
def aggregate (segs : List Seg) (numClips : Nat) : List Seg :=
  (sortByCombinedDesc segs).take numClips

/-- The whole scoring pipeline applied to the segments returned by the
ranking model: attach detector scores, normalize energy, compute the
combined score, stable-sort and truncate. -/
def rankPipeline (windows : List Window) (hypes : List HypeEvent) (scenes : List ℚ)
    (segs : List Seg) (numClips : Nat) : List Seg :=
  aggregate (computeCombined (normalizeEnergy (segs.map (attachScores windows hypes scenes)))) numClips

/-!  ## The job orchestrator: `process_video_for_clips` progress trace and
`process_video_task` (`main.py` lines 757–942).

Progress writes are recorded as the list of percentages passed to the
callback / written to the job record, in order.  Messages are elided
(no claim concerns them).  The per-clip progress
`65 + int((i / len(segments)) * 30)` is modelled with exact (floor)
arithmetic `65 + 30 * i / n`. -/

/-- A produced clip record: its ordinal, asset path (none when both the
encode and the preview fallback failed), bounds and duration. -/
structure Clip where
  clipNumber : Nat
  path : Option String
  cstart : ℚ
  cstop : ℚ
deriving Repr, DecidableEq

/-- Oracle for the effectful collaborators of
`process_video_for_clips`: whether transcription raises, what the
ranking model returns (or the exception it raises), the detector
outputs, how many streaming sub-progress messages the analysis emits,
and per-clip whether `generate_clip` succeeds and whether the fast
preview copy succeeds (with the produced path names). -/
structure PipelineEnv where
  transcribeResult : Except String Unit
  analyzeResult : Except String (List Seg)
  energyWindows : List Window
  hypeEvents : List HypeEvent
  sceneTimes : List ℚ
  analysisChunks : Nat
  clipGenOk : Nat → Bool
  previewOk : Nat → Bool
  clipPath : Nat → String
  previewPath : Nat → String

/-- Result of `process_video_for_clips`: the `{"success": True, ...}`
dict with its clips, or `{"success": False, "error": str(e)}`. -/
inductive ProcResult where
  | success (clips : List Clip)
  | failure (err : String)
deriving Repr, DecidableEq

/-- The per-clip progress value of line 714:
`65 + int((i / len(segments)) * 30)`. -/
def clipProgress (i n : Nat) : Nat := 65 + 30 * i / n

/-- The clip records and progress writes of the extraction loop (lines
710–759): for each selected segment, write the clip progress, clamp the
end time to `start + clip_duration`, try `generate_clip` and fall back
to the preview path (possibly absent) on failure. -/
def clipLoop (env : PipelineEnv) (dur : ℚ) (n : Nat) (selected : List Seg) :
    List Clip × List Nat :=
  ((selected.enum.map (fun p =>
      { clipNumber := p.1 + 1
        path := if env.clipGenOk p.1 then some (env.clipPath p.1)
                else if env.previewOk p.1 then some (env.previewPath p.1) else none
        cstart := p.2.start
        cstop := min p.2.stop (p.2.start + dur) : Clip })),
   (List.range n).map (fun i => clipProgress i n))

/-- `GeminiVideoProcessor.process_video_for_clips` (lines 585–778),
returning the result dict together with the ordered list of progress
percentages passed to `progress_callback`.  The streaming analysis
callback reports progress 50 for each chunk message (lines 601–603);
the body's `try` converts any raise into `{"success": False}`. -/
def processVideoForClips (env : PipelineEnv) (numClips : Nat) (dur : ℚ) :
    ProcResult × List Nat :=
  match env.transcribeResult with
  | Except.error e => (ProcResult.failure e, [10])
  | Except.ok _ =>
    match env.analyzeResult with
    | Except.error e =>
      (ProcResult.failure e, [10, 40, 45] ++ List.replicate env.analysisChunks 50)
    | Except.ok segs =>
      let scored := computeCombined (normalizeEnergy
        (segs.map (attachScores env.energyWindows env.hypeEvents env.sceneTimes)))
      let selected := aggregate scored numClips
      let loop := clipLoop env dur selected.length selected
      (ProcResult.success loop.1,
       [10, 40, 45] ++ List.replicate env.analysisChunks 50
         ++ [60, 65] ++ loop.2 ++ [100])

/-- `status` of a job record in `main.py`. -/
inductive JobStatus where
  | queued
  | processing
  | completed
  | failed
deriving Repr, DecidableEq

/-- The observable job record fields updated by `process_video_task`. -/
structure Job where
  status : JobStatus
  progress : Nat
  error : Option String
  clips : List Clip
deriving Repr, DecidableEq

/-- A freshly submitted job (`status="queued"`, `progress=0`). -/
def initialJob : Job :=
  { status := JobStatus.queued, progress := 0, error := none, clips := [] }

/-- `request.video_source`. -/
inductive Source where
  | upload
  | youtube
  | kick
  | url
deriving Repr, DecidableEq

/-- Oracle for the collaborators of `process_video_task` itself:
whether the processor is initialized, whether the referenced upload id
exists, whether a download raises, whether the downloaded / referenced
file exists on disk, and whether the storage uploads in the success
branch raise. -/
structure TaskEnv where
  processorInit : Bool
  videoIdValid : Bool
  downloadResult : Except String Unit
  videoExists : Bool
  uploadsResult : Except String Unit

/-- The `except` handler of lines 930–939: set `status="failed"` and
`error=str(e)`; `progress` is not written. -/
def mkFailed (j : Job) (e : String) : Job :=
  { j with status := JobStatus.failed, error := some e }

/-- Replay the callback's progress writes onto the job record (the
`update_progress` closure of lines 832–841). -/
def applyWrites (j : Job) (ws : List Nat) : Job :=
  ws.foldl (fun j' p => { j' with progress := p }) j

/-- Lines 828–939 — everything after the video path is acquired: the
existence check, the pipeline call with the progress callback, the
success branch (storage uploads, then `status="completed"`,
`progress=100`) and the exception handler. -/
def afterAcquire (te : TaskEnv) (env : PipelineEnv) (numClips : Nat) (dur : ℚ)
    (j : Job) (t : List Nat) : Job × List Nat :=
  if !te.videoExists then (mkFailed j "Video file not found", t)
  else
    let r := processVideoForClips env numClips dur
    let j' := applyWrites j r.2
    let t' := t ++ r.2
    match r.1 with
    | ProcResult.failure e => (mkFailed j' e, t')
    | ProcResult.success clips =>
      match te.uploadsResult with
      | Except.error e => (mkFailed j' e, t')
      | Except.ok _ =>
        ({ j' with status := JobStatus.completed, progress := 100, clips := clips },
         t' ++ [100])

/-- `process_video_task` (`main.py` lines 757–942), returning the final
job record and the ordered list of every progress value written over
the run: the inline 10 ("Preparing video..."), the inline 20 for
downloading sources, the callback writes, and the final 100 of the
success branch.  The in-memory (`jobs_db`) and database branches write
the same values. -/
def processVideoTask (src : Source) (te : TaskEnv) (env : PipelineEnv)
    (numClips : Nat) (dur : ℚ) (job0 : Job) : Job × List Nat :=
  let j1 := { job0 with status := JobStatus.processing, progress := 10 }
  if !te.processorInit then
    (mkFailed j1 "Video processor not initialized. Check GEMINI_API_KEY in .env file", [10])
  else
    match src with
    | Source.upload =>
      if te.videoIdValid then afterAcquire te env numClips dur j1 [10]
      else (mkFailed j1 "Invalid video ID", [10])
    | _ =>
      let j2 := { j1 with progress := 20 }
      match te.downloadResult with
      | Except.error e => (mkFailed j2 e, [10, 20])
      | Except.ok _ => afterAcquire te env numClips dur j2 [10, 20]

/-!  ## Theorems -/

/-- C2 (counterexample): the spec's pattern list and the code's pattern
list disagree in both directions.  The message "resource exhausted"
(with a space) is Rotatable per the spec sentence but NonRotatable in
the code, whose pattern carries an underscore; conversely the message
"rate_limit_exceeded" matches the code's pattern but none of the spec's
substrings. -/
theorem c2_counterexample :
    specRotatable ("resource exhausted".toList) = true ∧
    isRotatableError ("resource exhausted".toList) = false ∧
    specRotatable ("rate_limit_exceeded".toList) = false ∧
    isRotatableError ("rate_limit_exceeded".toList) = true := by
  refine ⟨rfl, rfl, rfl, rfl⟩

/-- C2 (amended): classification is a pure function of the error
message; an error is Rotatable iff its message contains
(case-insensitively) "429", "resource_exhausted",
"rate_limit_exceeded", "quota", "rate limit" or "too many requests";
every other error is NonRotatable. -/
theorem c2_amended_classification (err : List Char) :
    isRotatableError err = amendedRotatable err := by
  simp only [isRotatableError, amendedRotatable, rotatablePatterns,
    List.any_cons, List.any_nil]
  cases h429 : containsSub (lowerStr err) ("429".toList) <;>
    cases containsSub (lowerStr err) ("resource_exhausted".toList) <;>
    cases containsSub (lowerStr err) ("rate_limit_exceeded".toList) <;>
    cases containsSub (lowerStr err) ("quota".toList) <;>
    cases containsSub (lowerStr err) ("rate limit".toList) <;>
    cases containsSub (lowerStr err) ("too many requests".toList) <;>
    simp [h429]

/-- C3: after the combined-score pass, every candidate's
`combined_score` equals
`virality_score * (1 + energy_norm + 0.5 * hype_score
+ 0.3 * scene_proximity)` of its own fields. -/
theorem c3_combined_score (windows : List Window) (hypes : List HypeEvent)
    (scenes : List ℚ) (segs : List Seg) (s : Seg)
    (hs : s ∈ computeCombined (normalizeEnergy (segs.map (attachScores windows hypes scenes)))) :
    s.combinedScore =
      s.viralityScore * (1 + s.energyNorm + (1/2 : ℚ) * s.hypeScore
        + (3/10 : ℚ) * s.sceneProximity) := by
  rcases List.mem_map.mp hs with ⟨a, _, rfl⟩
  rfl

/-- The seed of a `foldl max` is below the fold. -/
lemma le_foldl_max (l : List ℚ) : ∀ a : ℚ, a ≤ l.foldl max a := by
  induction l with
  | nil => intro a; exact le_refl a
  | cons x t ih => intro a; exact le_trans (le_max_left a x) (ih (max a x))

/-- Every member of the list is below its `foldl max`. -/
lemma mem_le_foldl_max (l : List ℚ) : ∀ (a x : ℚ), x ∈ l → x ≤ l.foldl max a := by
  induction l with
  | nil => intro a x hx; cases hx
  | cons y t ih =>
    intro a x hx
    rcases List.mem_cons.mp hx with rfl | h
    · exact le_trans (le_max_right a x) (le_foldl_max t _)
    · exact ih _ _ h

/-- The `foldl min` is below its seed. -/
lemma foldl_min_le (l : List ℚ) : ∀ a : ℚ, l.foldl min a ≤ a := by
  induction l with
  | nil => intro a; exact le_refl a
  | cons x t ih => intro a; exact le_trans (ih (min a x)) (min_le_left a x)

/-- The `foldl min` is below every member of the list. -/
lemma foldl_min_le_mem (l : List ℚ) : ∀ (a x : ℚ), x ∈ l → l.foldl min a ≤ x := by
  induction l with
  | nil => intro a x hx; cases hx
  | cons y t ih =>
    intro a x hx
    rcases List.mem_cons.mp hx with rfl | h
    · exact le_trans (foldl_min_le t _) (min_le_right a x)
    · exact ih _ _ h

/-- A `foldl min` of nonnegative numbers from a nonnegative seed is
nonnegative. -/
lemma foldl_min_nonneg (l : List ℚ) : ∀ a : ℚ, 0 ≤ a → (∀ x ∈ l, 0 ≤ x) →
    0 ≤ l.foldl min a := by
  induction l with
  | nil => intro a ha _; exact ha
  | cons y t ih =>
    intro a ha hl
    exact ih (min a y) (le_min ha (hl y (List.mem_cons_self y t)))
      (fun x hx => hl x (List.mem_cons_of_mem y hx))

/-- `normalizeEnergy` maps each candidate to itself with `energy_norm`
set to `normVal`. -/
lemma normalizeEnergy_eq (segs : List Seg) :
    normalizeEnergy segs =
      segs.map (fun s => { s with energyNorm := normVal segs s.energyScore }) := by
  cases segs with
  | nil => rfl
  | cons s0 rest =>
    simp only [normalizeEnergy, normVal, List.map_cons]
    by_cases h1 : 0 < (rest.map (·.energyScore)).foldl max s0.energyScore
    · simp only [if_pos h1]
      by_cases h2 : 0 < (rest.map (·.energyScore)).foldl max s0.energyScore -
          (rest.map (·.energyScore)).foldl min s0.energyScore
      · simp [h2]
      · simp [h2]
    · simp [h1]

/-- `normVal` agrees with the spec's min–max normalization, and lies in
`[0,1]`, whenever the energy scores are nonnegative and `e` is one of
them. -/
lemma normVal_spec (segs : List Seg)
    (hnn : ∀ s ∈ segs, 0 ≤ s.energyScore) (e : ℚ)
    (he : e ∈ segs.map (·.energyScore)) :
    normVal segs e = specMinMaxNorm (segs.map (·.energyScore)) e ∧
    0 ≤ normVal segs e ∧ normVal segs e ≤ 1 := by
  cases segs with
  | nil => cases he
  | cons s0 rest =>
    simp only [normVal, specMinMaxNorm, List.map_cons]
    set e0 := s0.energyScore with he0
    set es := rest.map (·.energyScore) with hes
    set mx := es.foldl max e0 with hmx
    set mn := es.foldl min e0 with hmn
    have hmnmx : mn ≤ mx := le_trans (foldl_min_le es e0) (le_foldl_max es e0)
    have heb : mn ≤ e ∧ e ≤ mx := by
      simp only [List.map_cons] at he
      rcases List.mem_cons.mp he with h | h
      · exact h ▸ ⟨foldl_min_le es e0, le_foldl_max es e0⟩
      · exact ⟨foldl_min_le_mem es e0 _ h, mem_le_foldl_max es e0 _ h⟩
    by_cases h1 : 0 < mx
    · simp only [if_pos h1]
      by_cases h2 : 0 < mx - mn
      · have hne : ¬ mx = mn := fun h => by rw [h] at h2; simp at h2
        simp only [if_pos h2, if_neg hne]
        refine ⟨trivial, ?_, ?_⟩
        · exact div_nonneg (by linarith [heb.1]) (by linarith)
        · rw [div_le_one h2]; linarith [heb.2]
      · have heq : mx = mn := le_antisymm (by linarith) hmnmx
        simp only [if_neg h2, if_pos heq]
        exact ⟨trivial, le_refl 0, by norm_num⟩
    · have hmx0 : mx ≤ 0 := le_of_not_lt h1
      have hmn0 : 0 ≤ mn := by
        refine foldl_min_nonneg es e0 (hnn s0 (List.mem_cons_self s0 rest)) ?_
        intro x hx
        rcases List.mem_map.mp hx with ⟨b, hb, rfl⟩
        exact hnn b (List.mem_cons_of_mem s0 hb)
      have heq : mx = mn := le_antisymm (le_trans hmx0 hmn0) hmnmx
      simp only [if_neg h1, if_pos heq]
      exact ⟨trivial, le_refl 0, by norm_num⟩

/-- Core of C7: on any candidate list whose energy scores are all
nonnegative, the source's normalization (`normalizeEnergy`, with its
`max > 0` guard) computes exactly the spec's min–max normalization
(`specMinMaxNorm`), and the result lies in `[0, 1]`. -/
lemma normalizeEnergy_eq_spec (segs : List Seg)
    (hnn : ∀ s ∈ segs, 0 ≤ s.energyScore) :
    ∀ s ∈ normalizeEnergy segs,
      s.energyNorm = specMinMaxNorm (segs.map (·.energyScore)) s.energyScore ∧
      0 ≤ s.energyNorm ∧ s.energyNorm ≤ 1 := by
  intro s hs
  rw [normalizeEnergy_eq] at hs
  rcases List.mem_map.mp hs with ⟨a, ha, rfl⟩
  exact normVal_spec segs hnn a.energyScore (List.mem_map_of_mem (·.energyScore) ha)

/-- Every attached energy score is nonnegative when every RMS window
value is (RMS values are square roots in
`ffmpeg_helpers.compute_rms_windows`, hence nonnegative). -/
lemma attachScores_energy_nonneg (ws : List Window) (hs : List HypeEvent)
    (scs : List ℚ) (hrms : ∀ w ∈ ws, 0 ≤ w.rms) (a : Seg) :
    0 ≤ (attachScores ws hs scs a).energyScore := by
  simp only [attachScores]
  split
  · exact le_refl 0
  · refine div_nonneg ?_ (Nat.cast_nonneg _)
    refine List.sum_nonneg ?_
    intro x hx
    rcases List.mem_map.mp hx with ⟨w, hw, rfl⟩
    exact hrms w (List.mem_of_mem_filter hw)

/-- C7: across the candidates of the aggregation step, `energy_norm` is
the min–max normalization of `energy_score` into `[0,1]`, and it is 0
for every candidate when the maximum equals the minimum
(`specMinMaxNorm` returns 0 exactly in that flat case). -/
theorem c7_energy_norm_minmax (ws : List Window) (hy : List HypeEvent)
    (scs : List ℚ) (segs : List Seg) (hrms : ∀ w ∈ ws, 0 ≤ w.rms) :
    ∀ s ∈ normalizeEnergy (segs.map (attachScores ws hy scs)),
      s.energyNorm =
        specMinMaxNorm ((segs.map (attachScores ws hy scs)).map (·.energyScore))
          s.energyScore ∧
      0 ≤ s.energyNorm ∧ s.energyNorm ≤ 1 := by
  refine normalizeEnergy_eq_spec _ ?_
  intro s hs
  rcases List.mem_map.mp hs with ⟨a, _, rfl⟩
  exact attachScores_energy_nonneg ws hy scs hrms a

/-- C7 witness: the theorem applied to a concrete single-candidate
pipeline with no energy windows. -/
theorem c7_energy_norm_minmax_witness :
    (∀ w ∈ ([] : List Window), 0 ≤ w.rms) ∧
    (∃ s ∈ normalizeEnergy
        ([({ start := 0, stop := 10, viralityScore := 8 } : Seg)].map
          (attachScores [] [] [])),
      s.energyNorm =
        specMinMaxNorm (([({ start := 0, stop := 10, viralityScore := 8 } : Seg)].map
          (attachScores [] [] [])).map (·.energyScore)) s.energyScore ∧
      0 ≤ s.energyNorm ∧ s.energyNorm ≤ 1) := by
  have hrms : ∀ w ∈ ([] : List Window), 0 ≤ w.rms := by intro w hw; cases hw
  have hmem :
      ({ start := 0, stop := 10, viralityScore := 8, energyScore := 0, energyNorm := 0,
         hypeScore := 0, sceneProximity := 0, combinedScore := 0 } : Seg) ∈
        normalizeEnergy
          ([({ start := 0, stop := 10, viralityScore := 8 } : Seg)].map
            (attachScores [] [] [])) := List.Mem.head _
  exact ⟨hrms, _, hmem, c7_energy_norm_minmax [] [] [] _ hrms _ hmem⟩

/-- Descending insertion produces a permutation of consing. -/
lemma insertDesc_perm (c : Seg) (l : List Seg) : List.Perm (insertDesc c l) (c :: l) := by
  induction l with
  | nil => exact List.Perm.refl _
  | cons x xs ih =>
    by_cases h : x.combinedScore ≤ c.combinedScore
    · simp only [insertDesc, if_pos h]
      exact List.Perm.refl _
    · simp only [insertDesc, if_neg h]
      exact List.Perm.trans (List.Perm.cons x ih) (List.Perm.swap c x xs)

/-- The stable descending sort permutes its input. -/
lemma sortByCombinedDesc_perm (l : List Seg) : List.Perm (sortByCombinedDesc l) l := by
  induction l with
  | nil => exact List.Perm.refl _
  | cons x xs ih =>
    exact List.Perm.trans (insertDesc_perm x (sortByCombinedDesc xs)) (List.Perm.cons x ih)

/-- Descending insertion preserves descending sortedness. -/
lemma insertDesc_pairwise (c : Seg) (l : List Seg)
    (hp : List.Pairwise (fun a b : Seg => b.combinedScore ≤ a.combinedScore) l) :
    List.Pairwise (fun a b : Seg => b.combinedScore ≤ a.combinedScore) (insertDesc c l) := by
  induction l with
  | nil => simp [insertDesc]
  | cons x xs ih =>
    rcases List.pairwise_cons.mp hp with ⟨hx, hxs⟩
    by_cases h : x.combinedScore ≤ c.combinedScore
    · simp only [insertDesc, if_pos h]
      refine List.pairwise_cons.mpr ⟨?_, hp⟩
      intro y hy
      rcases List.mem_cons.mp hy with rfl | hy'
      · exact h
      · exact le_trans (hx y hy') h
    · simp only [insertDesc, if_neg h]
      refine List.pairwise_cons.mpr ⟨?_, ih hxs⟩
      intro y hy
      have hy2 : y ∈ c :: xs := (insertDesc_perm c xs).mem_iff.mp hy
      rcases List.mem_cons.mp hy2 with rfl | hy'
      · exact le_of_lt (lt_of_not_le h)
      · exact hx y hy'

/-- The stable descending sort is sorted descending by
`combined_score`. -/
lemma sortByCombinedDesc_pairwise (l : List Seg) :
    List.Pairwise (fun a b : Seg => b.combinedScore ≤ a.combinedScore)
      (sortByCombinedDesc l) := by
  induction l with
  | nil => exact List.Pairwise.nil
  | cons x xs ih => exact insertDesc_pairwise x _ ih

/-- Inserting `c` leaves the subsequence of any fixed score class
untouched except for `c` itself being prepended to its own class:
the elements `insertDesc` jumps over have strictly larger scores. -/
lemma insertDesc_filter (q : ℚ) (c : Seg) (l : List Seg) :
    (insertDesc c l).filter (fun s => decide (s.combinedScore = q)) =
      if c.combinedScore = q then
        c :: l.filter (fun s => decide (s.combinedScore = q))
      else l.filter (fun s => decide (s.combinedScore = q)) := by
  induction l with
  | nil =>
    by_cases hc : c.combinedScore = q <;> simp [insertDesc, hc]
  | cons x xs ih =>
    by_cases h : x.combinedScore ≤ c.combinedScore
    · simp only [insertDesc, if_pos h, List.filter_cons]
      by_cases hc : c.combinedScore = q <;> simp [hc]
    · simp only [insertDesc, if_neg h, List.filter_cons, ih]
      by_cases hc : c.combinedScore = q
      · have hx : ¬ x.combinedScore = q := fun hxq =>
          h (le_of_eq (hxq.trans hc.symm))
        simp [hc, hx]
      · simp [hc]

/-- Stability: the sort preserves the original relative order within
every class of candidates sharing one `combined_score`. -/
lemma sortByCombinedDesc_filter (q : ℚ) (l : List Seg) :
    (sortByCombinedDesc l).filter (fun s => decide (s.combinedScore = q)) =
      l.filter (fun s => decide (s.combinedScore = q)) := by
  induction l with
  | nil => rfl
  | cons x xs ih =>
    simp only [sortByCombinedDesc, insertDesc_filter, ih, List.filter_cons]
    by_cases hc : x.combinedScore = q <;> simp [hc]

/-- C8: the aggregator output is the candidates stable-sorted
descending by `combined_score` and truncated to the requested count:
the sorted list is a permutation of the candidates, is pairwise
descending (as is its truncation), preserves the original relative
order inside every equal-score class, the truncation is literally
`take`; when the requested count is at least the number of candidates
the result is the whole sorted list — a permutation of all candidates,
so no padding, duplication or error — and an empty candidate list gives
an empty result. -/
theorem c8_aggregate_sort_truncate (segs : List Seg) (n : Nat) :
    List.Perm (sortByCombinedDesc segs) segs ∧
    List.Pairwise (fun a b : Seg => b.combinedScore ≤ a.combinedScore)
      (sortByCombinedDesc segs) ∧
    List.Pairwise (fun a b : Seg => b.combinedScore ≤ a.combinedScore)
      (aggregate segs n) ∧
    (∀ q : ℚ, (sortByCombinedDesc segs).filter (fun s => decide (s.combinedScore = q)) =
      segs.filter (fun s => decide (s.combinedScore = q))) ∧
    aggregate segs n = (sortByCombinedDesc segs).take n ∧
    (segs.length ≤ n → aggregate segs n = sortByCombinedDesc segs ∧
      List.Perm (aggregate segs n) segs) ∧
    aggregate [] n = [] := by
  refine ⟨sortByCombinedDesc_perm segs, sortByCombinedDesc_pairwise segs, ?_, ?_, rfl, ?_,
    List.take_nil⟩
  · exact (sortByCombinedDesc_pairwise segs).sublist (List.take_sublist n _)
  · exact fun q => sortByCombinedDesc_filter q segs
  · intro hn
    have hlen : (sortByCombinedDesc segs).length = segs.length :=
      (sortByCombinedDesc_perm segs).length_eq
    have htake : aggregate segs n = sortByCombinedDesc segs := by
      unfold aggregate
      exact List.take_of_length_le (by rw [hlen]; exact hn)
    exact ⟨htake, htake ▸ sortByCombinedDesc_perm segs⟩

/-- C8 witness: the theorem applied to four concrete candidates (with a
tied pair) and a requested count exceeding the list length. -/
theorem c8_aggregate_sort_truncate_witness :
    (([({ start := 0, stop := 1, viralityScore := 1, combinedScore := 5 } : Seg),
       { start := 0, stop := 1, viralityScore := 2, combinedScore := 7 },
       { start := 0, stop := 1, viralityScore := 3, combinedScore := 5 },
       { start := 0, stop := 1, viralityScore := 4, combinedScore := 9 }] : List Seg).length ≤ 10) ∧
    List.Perm
      (aggregate
        [({ start := 0, stop := 1, viralityScore := 1, combinedScore := 5 } : Seg),
         { start := 0, stop := 1, viralityScore := 2, combinedScore := 7 },
         { start := 0, stop := 1, viralityScore := 3, combinedScore := 5 },
         { start := 0, stop := 1, viralityScore := 4, combinedScore := 9 }] 10)
      [({ start := 0, stop := 1, viralityScore := 1, combinedScore := 5 } : Seg),
       { start := 0, stop := 1, viralityScore := 2, combinedScore := 7 },
       { start := 0, stop := 1, viralityScore := 3, combinedScore := 5 },
       { start := 0, stop := 1, viralityScore := 4, combinedScore := 9 }] := by
  refine ⟨by decide, ?_⟩
  exact ((c8_aggregate_sort_truncate _ 10).2.2.2.2.2.1 (by decide)).2

/-- When the cyclic search reports success, the index it lands on is a
healthy key. -/
lemma rotGo_true_healthy (ks : List KeyState) (start : Nat) :
    ∀ (fuel idx : Nat), (rotGo ks start idx fuel).2 = true →
      keyHealthy ks (rotGo ks start idx fuel).1 = true := by
  intro fuel
  induction fuel with
  | zero => intro idx h; simp [rotGo] at h
  | succ f ih =>
    intro idx h
    by_cases hh : keyHealthy ks ((idx + 1) % ks.length) = true
    · simp [rotGo, hh]
    · simp only [rotGo, if_neg hh] at h ⊢
      exact ih _ h

/-- When the cyclic search fails, the index is restored to the saved
start. -/
lemma rotGo_false_restores (ks : List KeyState) (start : Nat) :
    ∀ (fuel idx : Nat), (rotGo ks start idx fuel).2 = false →
      (rotGo ks start idx fuel).1 = start := by
  intro fuel
  induction fuel with
  | zero => intro idx _; rfl
  | succ f ih =>
    intro idx h
    by_cases hh : keyHealthy ks ((idx + 1) % ks.length) = true
    · simp [rotGo, hh] at h
    · simp only [rotGo, if_neg hh] at h ⊢
      exact ih _ h

/-- If some cyclic successor of `idx` within the fuel budget is
healthy, the search succeeds. -/
lemma rotGo_reaches (ks : List KeyState) (start : Nat) :
    ∀ (fuel idx k : Nat), 1 ≤ k → k ≤ fuel →
      keyHealthy ks ((idx + k) % ks.length) = true →
      (rotGo ks start idx fuel).2 = true := by
  intro fuel
  induction fuel with
  | zero => intro idx k hk1 hk0 _; omega
  | succ f ih =>
    intro idx k hk1 hkf hkh
    by_cases hh : keyHealthy ks ((idx + 1) % ks.length) = true
    · simp [rotGo, hh]
    · simp only [rotGo, if_neg hh]
      have hk2 : 2 ≤ k := by
        rcases Nat.lt_or_ge k 2 with h2 | h2
        · interval_cases k
          · exact absurd hkh hh
        · exact h2
      refine ih ((idx + 1) % ks.length) (k - 1) (by omega) (by omega) ?_
      have hmod : ((idx + 1) % ks.length + (k - 1)) % ks.length =
          (idx + k) % ks.length := by
        rw [Nat.mod_add_mod]
        congr 1
        omega
      rw [hmod]
      exact hkh

/-- When the search succeeds, the landing index is the first healthy
cyclic successor: it is `(idx + k) % len` for some `1 ≤ k ≤ fuel`, and
every strictly earlier successor is unhealthy. -/
lemma rotGo_found (ks : List KeyState) (start : Nat) :
    ∀ (fuel idx : Nat), (rotGo ks start idx fuel).2 = true →
      ∃ k, 1 ≤ k ∧ k ≤ fuel ∧
        (rotGo ks start idx fuel).1 = (idx + k) % ks.length ∧
        ∀ j, 1 ≤ j → j < k → keyHealthy ks ((idx + j) % ks.length) = false := by
  intro fuel
  induction fuel with
  | zero => intro idx h; simp [rotGo] at h
  | succ f ih =>
    intro idx h
    by_cases hh : keyHealthy ks ((idx + 1) % ks.length) = true
    · refine ⟨1, le_refl 1, by omega, by simp [rotGo, hh], ?_⟩
      intro j hj1 hj; omega
    · simp only [rotGo, if_neg hh] at h ⊢
      rcases ih ((idx + 1) % ks.length) h with ⟨k', hk1, hkf, hfst, hmin⟩
      have hmod : ∀ j : Nat, 1 ≤ j →
          ((idx + 1) % ks.length + (j - 1)) % ks.length = (idx + j) % ks.length := by
        intro j hj
        rw [Nat.mod_add_mod]
        congr 1
        omega
      refine ⟨k' + 1, by omega, by omega, ?_, ?_⟩
      · rw [hfst, ← hmod (k' + 1) (by omega)]
        norm_num
      · intro j hj1 hj
        rcases Nat.eq_or_lt_of_le hj1 with h1 | h1
        · rw [← h1]
          simpa using eq_false_of_ne_true hh
        · rw [← hmod j hj1]
          exact hmin (j - 1) (by omega) (by omega)

/-- A pool whose unhealthy count is below its size has a healthy key at
some valid index. -/
lemma exists_healthy_of_countP (ks : List KeyState)
    (h : ks.countP (fun k => !k.healthy) < ks.length) :
    ∃ j, j < ks.length ∧ keyHealthy ks j = true := by
  by_contra hno
  push_neg at hno
  have hall : ∀ k ∈ ks, (!k.healthy) = true := by
    intro k hk
    rcases List.mem_iff_getElem.mp hk with ⟨i, hi, rfl⟩
    have := hno i hi
    have hgd : keyHealthy ks i = ks[i].healthy := by
      simp [keyHealthy, List.getD_eq_getElem?_getD, List.getElem?_eq_getElem hi]
    simp [hgd] at this
    simp [this]
  have := List.countP_eq_length.mpr hall
  omega

/-- Any target index of the pool is a cyclic successor of the current
index within `len` steps, with fewer than `len` steps when it differs
from the current index. -/
lemma cycle_cover (cur j len : Nat) (hcur : cur < len) (hj : j < len) :
    ∃ k, 1 ≤ k ∧ k ≤ len ∧ (cur + k) % len = j ∧ (j ≠ cur → k < len) := by
  by_cases hlt : cur < j
  · refine ⟨j - cur, by omega, by omega, ?_, by omega⟩
    have : cur + (j - cur) = j := by omega
    rw [this, Nat.mod_eq_of_lt hj]
  · refine ⟨len - cur + j, by omega, by omega, ?_, by omega⟩
    have : cur + (len - cur + j) = len + j := by omega
    rw [this, Nat.add_mod_left, Nat.mod_eq_of_lt hj]

/-- A cyclic step count `1 ≤ k ≤ len` that returns to the starting
index must be the full cycle. -/
lemma cycle_full (cur k len : Nat) (hcur : cur < len) (hk1 : 1 ≤ k) (hkn : k ≤ len)
    (h : (cur + k) % len = cur) : k = len := by
  by_cases hlt : cur + k < len
  · rw [Nat.mod_eq_of_lt hlt] at h
    omega
  · have hsub : (cur + k) % len = cur + k - len := by
      rw [Nat.mod_eq_sub_mod (le_of_not_lt hlt)]
      exact Nat.mod_eq_of_lt (by omega)
    rw [hsub] at h
    omega

/-- C6 (amended): with the index in range, (a) whenever the number of
credentials exceeds the number of unhealthy ones, `rotate()` returns
true and lands on a healthy credential — and on a credential different
from the one active before the call whenever some credential other than
the current one is healthy; (b) on a pool with zero healthy credentials
it returns false with `currentIndex` restored to its prior value. -/
theorem c6_rotate (m : Manager) (hwf : m.currentIndex < m.keys.length) :
    ((m.keys.countP (fun k => !k.healthy) < m.keys.length →
      (rotateToNextHealthy m).2 = true ∧
      keyHealthy m.keys (rotateToNextHealthy m).1.currentIndex = true ∧
      ((∃ j, j < m.keys.length ∧ j ≠ m.currentIndex ∧ keyHealthy m.keys j = true) →
        (rotateToNextHealthy m).1.currentIndex ≠ m.currentIndex)) ∧
     ((∀ k ∈ m.keys, k.healthy = false) →
      (rotateToNextHealthy m).2 = false ∧
      (rotateToNextHealthy m).1.currentIndex = m.currentIndex)) := by
  constructor
  · intro hcount
    rcases exists_healthy_of_countP m.keys hcount with ⟨j, hj, hjh⟩
    have hlen : 0 < m.keys.length := by omega
    rcases cycle_cover m.currentIndex j m.keys.length hwf hj with ⟨k, hk1, hkn, hmod, _⟩
    have htrue : (rotGo m.keys m.currentIndex m.currentIndex m.keys.length).2 = true := by
      refine rotGo_reaches m.keys m.currentIndex m.keys.length m.currentIndex k hk1 hkn ?_
      rw [hmod]; exact hjh
    refine ⟨htrue, ?_, ?_⟩
    · simpa [rotateToNextHealthy] using
        rotGo_true_healthy m.keys m.currentIndex m.keys.length m.currentIndex htrue
    · rintro ⟨j', hj', hjne, hjh'⟩ heq
      rcases rotGo_found m.keys m.currentIndex m.keys.length m.currentIndex htrue with
        ⟨k0, hk01, hk0n, hfst, hmin⟩
      simp only [rotateToNextHealthy] at heq
      rw [hfst] at heq
      have hk0len : k0 = m.keys.length :=
        cycle_full m.currentIndex k0 m.keys.length hwf hk01 hk0n heq
      rcases cycle_cover m.currentIndex j' m.keys.length hwf hj' with
        ⟨k', hk'1, _, hmod', hk'lt⟩
      have hk'len : k' < m.keys.length := hk'lt hjne
      have := hmin k' hk'1 (by omega)
      rw [hmod'] at this
      rw [this] at hjh'
      cases hjh'
  · intro hall
    have hnone : ∀ i, keyHealthy m.keys i = false := by
      intro i
      unfold keyHealthy
      rcases Nat.lt_or_ge i m.keys.length with hi | hi
      · have hgd : m.keys.getD i default = m.keys[i] := by
          simp [List.getD_eq_getElem?_getD, List.getElem?_eq_getElem hi]
        rw [hgd]
        exact hall _ (List.getElem_mem hi)
      · have hgd : m.keys.getD i default = default := by
          simp [List.getD_eq_getElem?_getD, List.getElem?_eq_none hi]
        rw [hgd]
        rfl
    have hfalse : (rotGo m.keys m.currentIndex m.currentIndex m.keys.length).2 = false := by
      cases hb : (rotGo m.keys m.currentIndex m.currentIndex m.keys.length).2
      · rfl
      · have := rotGo_true_healthy m.keys m.currentIndex m.keys.length m.currentIndex hb
        rw [hnone] at this
        cases this
    refine ⟨hfalse, ?_⟩
    simpa [rotateToNextHealthy] using
      rotGo_false_restores m.keys m.currentIndex m.keys.length m.currentIndex hfalse

/-- C6 (counterexample): on a single-key healthy pool the number of
credentials (1) exceeds the number of unhealthy ones (0) and the
rotation succeeds, but it lands on the very credential that was active
before the call — not a different one as the claim asserts. -/
theorem c6_rotate_counterexample :
    ((Manager.mk [⟨true, none, 0⟩] 0).keys.countP (fun k => !k.healthy) <
      (Manager.mk [⟨true, none, 0⟩] 0).keys.length) ∧
    (rotateToNextHealthy (Manager.mk [⟨true, none, 0⟩] 0)).2 = true ∧
    (rotateToNextHealthy (Manager.mk [⟨true, none, 0⟩] 0)).1.currentIndex =
      (Manager.mk [⟨true, none, 0⟩] 0).currentIndex := by
  decide

/-- C6 witness: the amended theorem applied to a two-key pool whose
other key is the healthy one. -/
theorem c6_rotate_witness :
    (rotateToNextHealthy (Manager.mk [⟨false, none, 0⟩, ⟨true, none, 0⟩] 0)).2 = true ∧
    (rotateToNextHealthy (Manager.mk [⟨false, none, 0⟩, ⟨true, none, 0⟩] 0)).1.currentIndex ≠
      (Manager.mk [⟨false, none, 0⟩, ⟨true, none, 0⟩] 0).currentIndex := by
  have h := c6_rotate (Manager.mk [⟨false, none, 0⟩, ⟨true, none, 0⟩] 0) (by decide)
  exact ⟨(h.1 (by decide)).1,
    (h.1 (by decide)).2.2 ⟨1, by decide, by decide, by decide⟩⟩

/-- Keys other than the marked one are untouched by `markUnhealthy`. -/
lemma markUnhealthy_other (ks : List KeyState) (i j : Nat) (msg : List Char)
    (hne : j ≠ i) : (markUnhealthy ks i msg).getD j default = ks.getD j default := by
  simp only [markUnhealthy, List.getD_eq_getElem?_getD]
  rw [List.getElem?_set_ne (Ne.symm hne)]

/-- The marked key reads back unhealthy (for an in-range index). -/
lemma markUnhealthy_self (ks : List KeyState) (i : Nat) (msg : List Char)
    (hi : i < ks.length) : keyHealthy (markUnhealthy ks i msg) i = false := by
  simp only [keyHealthy, markUnhealthy, List.getD_eq_getElem?_getD]
  rw [List.getElem?_set_eq_of_lt _ hi]
  rfl

/-- `rotateToNextHealthy` never changes the key list, only the
pointer. -/
lemma rotateToNextHealthy_keys (m : Manager) :
    (rotateToNextHealthy m).1.keys = m.keys := rfl

/-- If the current credential is healthy, `rotate_on_error` marks
exactly it unhealthy and leaves every other credential untouched. -/
lemma rotateOnError_marks (m : Manager) (msg : List Char)
    (hwf : m.currentIndex < m.keys.length)
    (hcur : keyHealthy m.keys m.currentIndex = true) :
    keyHealthy (rotateOnError m msg).1.keys m.currentIndex = false ∧
    (∀ j, j ≠ m.currentIndex →
      (rotateOnError m msg).1.keys.getD j default = m.keys.getD j default) := by
  have hne : ¬ m.keys.isEmpty = true := by
    cases hk : m.keys with
    | nil => rw [hk] at hwf; simp at hwf
    | cons a l => simp
  unfold rotateOnError
  rw [if_neg hne, hcur]
  simp only [Bool.not_true, Bool.false_eq_true, if_false, rotateToNextHealthy_keys]
  exact ⟨markUnhealthy_self m.keys m.currentIndex msg hwf,
    fun j hj => markUnhealthy_other m.keys m.currentIndex j msg hj⟩

/-- C10: the failure-marking path of the pool always penalizes the
credential that is current at call time.  (a) If the current credential
is healthy, `rotate_on_error` marks exactly it unhealthy — whatever the
error was — and leaves every other credential's state untouched.
(b) The no-op (idempotency) branch applies only when the current
credential is unhealthy: the key list is then left entirely unchanged.
(c) Two successive calls, the first of which rotates successfully, mark
two distinct credentials unhealthy. -/
theorem c10_mark_current (m : Manager) (msg msg2 : List Char)
    (hwf : m.currentIndex < m.keys.length) :
    (keyHealthy m.keys m.currentIndex = true →
      keyHealthy (rotateOnError m msg).1.keys m.currentIndex = false ∧
      (∀ j, j ≠ m.currentIndex →
        (rotateOnError m msg).1.keys.getD j default = m.keys.getD j default)) ∧
    (keyHealthy m.keys m.currentIndex = false →
      (rotateOnError m msg).1.keys = m.keys) ∧
    (keyHealthy m.keys m.currentIndex = true →
      ∀ m1, rotateOnError m msg = (m1, true) →
        m1.currentIndex ≠ m.currentIndex ∧
        keyHealthy m1.keys m1.currentIndex = true ∧
        keyHealthy (rotateOnError m1 msg2).1.keys m1.currentIndex = false ∧
        keyHealthy (rotateOnError m1 msg2).1.keys m.currentIndex = false) := by
  have hne : ¬ m.keys.isEmpty = true := by
    cases hk : m.keys with
    | nil => rw [hk] at hwf; simp at hwf
    | cons a l => simp
  refine ⟨fun hcur => rotateOnError_marks m msg hwf hcur, ?_, ?_⟩
  · intro hcur
    unfold rotateOnError
    rw [if_neg hne, hcur]
    simp [rotateToNextHealthy_keys]
  · intro hcur m1 hrot
    have hrot' : rotateToNextHealthy
        { m with keys := markUnhealthy m.keys m.currentIndex msg } = (m1, true) := by
      unfold rotateOnError at hrot
      rw [if_neg hne, hcur] at hrot
      simpa using hrot
    have hkeys : m1.keys = markUnhealthy m.keys m.currentIndex msg := by
      have := congrArg (fun p => (Prod.fst p).keys) hrot'
      simpa [rotateToNextHealthy_keys] using this.symm
    have hsucc : (rotGo (markUnhealthy m.keys m.currentIndex msg) m.currentIndex
        m.currentIndex (markUnhealthy m.keys m.currentIndex msg).length).2 = true := by
      have := congrArg Prod.snd hrot'
      simpa [rotateToNextHealthy] using this.symm
    have hidx : m1.currentIndex = (rotGo (markUnhealthy m.keys m.currentIndex msg)
        m.currentIndex m.currentIndex
        (markUnhealthy m.keys m.currentIndex msg).length).1 := by
      have := congrArg (fun p => (Prod.fst p).currentIndex) hrot'
      simpa [rotateToNextHealthy] using this.symm
    have hm1h : keyHealthy m1.keys m1.currentIndex = true := by
      rw [hkeys, hidx]
      exact rotGo_true_healthy _ m.currentIndex _ m.currentIndex hsucc
    have hm1ne : m1.currentIndex ≠ m.currentIndex := by
      intro he
      rw [hkeys, he, markUnhealthy_self m.keys m.currentIndex msg hwf] at hm1h
      cases hm1h
    have hm1wf : m1.currentIndex < m1.keys.length := by
      by_contra hout
      push_neg at hout
      have hfalse : keyHealthy m1.keys m1.currentIndex = false := by
        unfold keyHealthy
        rw [List.getD_eq_getElem?_getD, List.getElem?_eq_none hout]
        rfl
      rw [hfalse] at hm1h
      cases hm1h
    have hstep := rotateOnError_marks m1 msg2 hm1wf hm1h
    refine ⟨hm1ne, hm1h, hstep.1, ?_⟩
    unfold keyHealthy
    rw [hstep.2 m.currentIndex (Ne.symm hm1ne), hkeys]
    have := markUnhealthy_self m.keys m.currentIndex msg hwf
    unfold keyHealthy at this
    exact this

/-- C10 witness: the theorem applied to a three-key pool with all keys
healthy; the first call (a 429) marks key 0 and rotates to key 1, the
second (a quota error) marks key 1. -/
theorem c10_mark_current_witness :
    ((Manager.mk [⟨false, some ("429".toList), 1⟩, ⟨true, none, 0⟩, ⟨true, none, 0⟩] 1).currentIndex ≠
      (Manager.mk [⟨true, none, 0⟩, ⟨true, none, 0⟩, ⟨true, none, 0⟩] 0).currentIndex) ∧
    keyHealthy (Manager.mk [⟨false, some ("429".toList), 1⟩, ⟨true, none, 0⟩, ⟨true, none, 0⟩] 1).keys 1 = true ∧
    keyHealthy (rotateOnError
      (Manager.mk [⟨false, some ("429".toList), 1⟩, ⟨true, none, 0⟩, ⟨true, none, 0⟩] 1)
      ("quota".toList)).1.keys 1 = false ∧
    keyHealthy (rotateOnError
      (Manager.mk [⟨false, some ("429".toList), 1⟩, ⟨true, none, 0⟩, ⟨true, none, 0⟩] 1)
      ("quota".toList)).1.keys 0 = false := by
  have h := (c10_mark_current
    (Manager.mk [⟨true, none, 0⟩, ⟨true, none, 0⟩, ⟨true, none, 0⟩] 0)
    ("429".toList) ("quota".toList) (by decide)).2.2 (by decide)
    (Manager.mk [⟨false, some ("429".toList), 1⟩, ⟨true, none, 0⟩, ⟨true, none, 0⟩] 1)
    (by decide)
  exact ⟨h.1, h.2.1, h.2.2.1, h.2.2.2⟩

/-- The retry loop satisfies the spec's retry algorithm from any loop
state whose fuel, when zero, comes with a last seen error. -/
lemma retryLoop_spec {α : Type} (op : Nat → Nat → OpOutcome α) :
    ∀ (f a : Nat) (le : Option (List Char)) (m : Manager),
      (f = 0 → ∃ msg, le = some msg) →
      RetrySpec op f a le m (retryLoop op a le m f) := by
  intro f
  induction f with
  | zero =>
    intro a le m h0
    rcases h0 rfl with ⟨msg, rfl⟩
    exact RetrySpec.lastSeen a msg m
  | succ f ih =>
    intro a le m _
    cases hgc : getCurrentClient m with
    | mk m' oidx =>
      cases oidx with
      | none =>
        have heq : retryLoop op a le m (f + 1) = (m', RetryOutcome.noHealthy) := by
          simp [retryLoop, hgc]
        rw [heq]
        exact RetrySpec.credExhausted f a le m m' hgc
      | some idx =>
        cases hop : op a idx with
        | ok v =>
          have heq : retryLoop op a le m (f + 1) = (m', RetryOutcome.ok v) := by
            simp [retryLoop, hgc, hop]
          rw [heq]
          exact RetrySpec.success f a le m m' idx v hgc hop
        | err msg =>
          by_cases hrot : isRotatableError msg = true
          · cases hroe : rotateOnError m' msg with
            | mk m'' b =>
              cases b
              · have heq : retryLoop op a le m (f + 1) =
                    (m'', RetryOutcome.raised msg) := by
                  simp [retryLoop, hgc, hop, hrot, hroe]
                rw [heq]
                exact RetrySpec.rotationFailed f a le m m' m'' idx msg hgc hop hrot hroe
              · have heq : retryLoop op a le m (f + 1) =
                    retryLoop op (a + 1) (some msg) m'' f := by
                  simp [retryLoop, hgc, hop, hrot, hroe]
                rw [heq]
                exact RetrySpec.rotationOk f a le m m' m'' idx msg _ hgc hop hrot hroe
                  (ih (a + 1) (some msg) m'' (fun _ => ⟨msg, rfl⟩))
          · have hrot' : isRotatableError msg = false := by
              cases hb : isRotatableError msg
              · rfl
              · exact absurd hb hrot
            have heq : retryLoop op a le m (f + 1) =
                (m', RetryOutcome.raised msg) := by
              simp [retryLoop, hgc, hop, hrot']
            rw [heq]
            exact RetrySpec.nonRotatable f a le m m' idx msg hgc hop hrot'

/-- C1: for any positive retry budget, `execute_with_retry` follows the
spec's retry algorithm: per attempt it obtains the active credential
(raising the no-healthy-credential error when there is none), invokes
the operation, returns on success, raises NonRotatable failures
immediately, on Rotatable failures marks the failure and continues only
when rotation succeeded, and after exhausting all attempts raises the
last seen error. -/
theorem c1_execute_with_retry (m : Manager) {α : Type}
    (op : Nat → Nat → OpOutcome α) (n : Nat) (hn : 1 ≤ n) :
    RetrySpec op n 0 none m (executeWithRetry m op n) :=
  retryLoop_spec op n 0 none m (fun h0 => absurd hn (by omega))

/-- C1 witness: the theorem applied to a three-key healthy pool and an
operation that fails with a 429 on the first attempt and then
succeeds, with the default budget of three attempts. -/
theorem c1_execute_with_retry_witness :
    1 ≤ 3 ∧
    RetrySpec (fun a i => if a = 0 then OpOutcome.err ("429".toList) else OpOutcome.ok i)
      3 0 none (Manager.mk [⟨true, none, 0⟩, ⟨true, none, 0⟩, ⟨true, none, 0⟩] 0)
      (executeWithRetry (Manager.mk [⟨true, none, 0⟩, ⟨true, none, 0⟩, ⟨true, none, 0⟩] 0)
        (fun a i => if a = 0 then OpOutcome.err ("429".toList) else OpOutcome.ok i) 3) :=
  ⟨by decide,
   c1_execute_with_retry (Manager.mk [⟨true, none, 0⟩, ⟨true, none, 0⟩, ⟨true, none, 0⟩] 0)
     (fun a i => if a = 0 then OpOutcome.err ("429".toList) else OpOutcome.ok i) 3
     (by decide)⟩

/-- Replaying progress writes only touches `progress`: the status is
kept. -/
lemma applyWrites_status (ws : List Nat) : ∀ j : Job, (applyWrites j ws).status = j.status := by
  induction ws with
  | nil => intro j; rfl
  | cons w t ih => intro j; exact ih _

/-- Replaying progress writes keeps the error field. -/
lemma applyWrites_error (ws : List Nat) : ∀ j : Job, (applyWrites j ws).error = j.error := by
  induction ws with
  | nil => intro j; rfl
  | cons w t ih => intro j; exact ih _

/-- Replaying progress writes keeps the clips field. -/
lemma applyWrites_clips (ws : List Nat) : ∀ j : Job, (applyWrites j ws).clips = j.clips := by
  induction ws with
  | nil => intro j; rfl
  | cons w t ih => intro j; exact ih _

/-- After replaying the writes, `progress` is the last write (or the
prior value when there were none). -/
lemma applyWrites_progress (ws : List Nat) :
    ∀ j : Job, (applyWrites j ws).progress = ws.getLastD j.progress := by
  induction ws with
  | nil => intro j; rfl
  | cons w t ih =>
    intro j
    rw [List.getLastD_cons]
    exact ih { j with progress := w }

/-- The last element of an append, with default threading. -/
lemma getLastD_append (ws : List Nat) :
    ∀ (t : List Nat) (d : Nat), (t ++ ws).getLastD d = ws.getLastD (t.getLastD d) := by
  intro t
  induction t with
  | nil => intro d; rfl
  | cons x xs ih =>
    intro d
    rw [List.cons_append, List.getLastD_cons, ih x, List.getLastD_cons]

/-- C9: whenever a run of `process_video_task` ends with the job
`Failed`, the error field is set (to the raised exception's message)
and `progress` still holds the last progress value written before the
failure — the handler never resets it. -/
theorem c9_failure_keeps_progress (src : Source) (te : TaskEnv) (env : PipelineEnv)
    (numClips : Nat) (dur : ℚ) (job0 : Job)
    (hfail : (processVideoTask src te env numClips dur job0).1.status = JobStatus.failed) :
    (processVideoTask src te env numClips dur job0).1.error.isSome = true ∧
    (processVideoTask src te env numClips dur job0).1.progress =
      (processVideoTask src te env numClips dur job0).2.getLastD 0 := by
  have hafter : ∀ (j : Job) (t : List Nat), j.progress = t.getLastD 0 →
      (afterAcquire te env numClips dur j t).1.status = JobStatus.failed →
      (afterAcquire te env numClips dur j t).1.error.isSome = true ∧
      (afterAcquire te env numClips dur j t).1.progress =
        (afterAcquire te env numClips dur j t).2.getLastD 0 := by
    intro j t hjp
    unfold afterAcquire
    by_cases hex : te.videoExists = true
    · simp only [hex, Bool.not_true, Bool.false_eq_true, if_false]
      cases hres : (processVideoForClips env numClips dur).1 with
      | failure e =>
        intro _
        refine ⟨rfl, ?_⟩
        rw [getLastD_append]
        simp only [mkFailed]
        rw [applyWrites_progress, hjp]
      | success clips =>
        cases hup : te.uploadsResult with
        | error e =>
          intro _
          refine ⟨rfl, ?_⟩
          rw [getLastD_append]
          simp only [mkFailed]
          rw [applyWrites_progress, hjp]
        | ok u =>
          intro hf
          simp at hf
    · simp only [hex]
      intro _
      exact ⟨rfl, hjp⟩
  revert hfail
  unfold processVideoTask
  by_cases hinit : te.processorInit = true
  · simp only [hinit, Bool.not_true, Bool.false_eq_true, if_false]
    cases src with
    | upload =>
      by_cases hvid : te.videoIdValid = true
      · simp only [hvid, if_true]
        exact hafter _ [10] rfl
      · simp only [hvid, Bool.false_eq_true, if_false]
        exact fun _ => ⟨rfl, rfl⟩
    | youtube =>
      cases hdl : te.downloadResult with
      | error e => exact fun _ => ⟨rfl, rfl⟩
      | ok u => exact hafter _ [10, 20] rfl
    | kick =>
      cases hdl : te.downloadResult with
      | error e => exact fun _ => ⟨rfl, rfl⟩
      | ok u => exact hafter _ [10, 20] rfl
    | url =>
      cases hdl : te.downloadResult with
      | error e => exact fun _ => ⟨rfl, rfl⟩
      | ok u => exact hafter _ [10, 20] rfl
  · simp only [hinit, Bool.not_false, if_true]
    exact fun _ => ⟨rfl, rfl⟩

/-- C9 witness: the theorem applied to a concrete run whose
transcription step raises: the job fails with its error set and its
progress retained at the 10 written before transcription. -/
theorem c9_failure_keeps_progress_witness :
    (processVideoTask Source.upload
      ⟨true, true, Except.ok (), true, Except.ok ()⟩
      ⟨Except.error "boom", Except.ok [], [], [], [], 0,
        fun _ => true, fun _ => true, fun _ => "c", fun _ => "p"⟩
      5 30 initialJob).1.status = JobStatus.failed ∧
    (processVideoTask Source.upload
      ⟨true, true, Except.ok (), true, Except.ok ()⟩
      ⟨Except.error "boom", Except.ok [], [], [], [], 0,
        fun _ => true, fun _ => true, fun _ => "c", fun _ => "p"⟩
      5 30 initialJob).1.error.isSome = true ∧
    (processVideoTask Source.upload
      ⟨true, true, Except.ok (), true, Except.ok ()⟩
      ⟨Except.error "boom", Except.ok [], [], [], [], 0,
        fun _ => true, fun _ => true, fun _ => "c", fun _ => "p"⟩
      5 30 initialJob).1.progress =
    (processVideoTask Source.upload
      ⟨true, true, Except.ok (), true, Except.ok ()⟩
      ⟨Except.error "boom", Except.ok [], [], [], [], 0,
        fun _ => true, fun _ => true, fun _ => "c", fun _ => "p"⟩
      5 30 initialJob).2.getLastD 0 := by
  have h := c9_failure_keeps_progress Source.upload
    ⟨true, true, Except.ok (), true, Except.ok ()⟩
    ⟨Except.error "boom", Except.ok [], [], [], [], 0,
      fun _ => true, fun _ => true, fun _ => "c", fun _ => "p"⟩
    5 30 initialJob (by decide)
  exact ⟨by decide, h.1, h.2⟩

/-- Concatenating two sorted lists across a pivot stays sorted. -/
lemma pairwise_le_append_pivot (l1 l2 : List Nat) (b : Nat)
    (h1 : List.Pairwise (· ≤ ·) l1) (h2 : List.Pairwise (· ≤ ·) l2)
    (hb1 : ∀ x ∈ l1, x ≤ b) (hb2 : ∀ y ∈ l2, b ≤ y) :
    List.Pairwise (· ≤ ·) (l1 ++ l2) :=
  List.pairwise_append.mpr
    ⟨h1, h2, fun a ha y hy => le_trans (hb1 a ha) (hb2 y hy)⟩

/-- A constant list is sorted. -/
lemma pairwise_le_replicate (k v : Nat) :
    List.Pairwise (· ≤ ·) (List.replicate k v) := by
  induction k with
  | zero => exact List.Pairwise.nil
  | succ n ih =>
    rw [List.replicate_succ]
    refine List.pairwise_cons.mpr ⟨?_, ih⟩
    intro y hy
    exact le_of_eq (List.eq_of_mem_replicate hy).symm

/-- The per-clip progress values are sorted (the loop index grows). -/
lemma clipWs_pairwise (n : Nat) :
    List.Pairwise (· ≤ ·) ((List.range n).map (fun i => clipProgress i n)) := by
  refine List.Pairwise.map _ ?_ (List.pairwise_lt_range n)
  intro a b hab
  unfold clipProgress
  exact Nat.add_le_add_left
    (Nat.div_le_div_right (Nat.mul_le_mul_left 30 (le_of_lt hab))) 65

/-- Every per-clip progress value lies in `[65, 95]`. -/
lemma clipWs_bounds (n p : Nat)
    (hp : p ∈ (List.range n).map (fun i => clipProgress i n)) :
    65 ≤ p ∧ p ≤ 95 := by
  rcases List.mem_map.mp hp with ⟨i, hi, rfl⟩
  have hin : i < n := List.mem_range.mp hi
  have hn : 0 < n := by omega
  have hdiv : 30 * i / n < 30 := by
    rw [Nat.div_lt_iff_lt_mul hn]
    omega
  unfold clipProgress
  refine ⟨Nat.le_add_right 65 _, ?_⟩
  have h29 : 30 * i / n ≤ 29 := Nat.le_of_lt_succ hdiv
  calc 65 + 30 * i / n ≤ 65 + 29 := Nat.add_le_add_left h29 65
    _ ≤ 95 := by omega

/-- The progress values reported by `process_video_for_clips` form a
sorted list of checkpoints in `[10, 100]`, and never include the
download checkpoint 20. -/
lemma procWrites_props (env : PipelineEnv) (n : Nat) (dur : ℚ) :
    List.Pairwise (· ≤ ·) ((processVideoForClips env n dur).2) ∧
    ∀ p ∈ (processVideoForClips env n dur).2, 10 ≤ p ∧ p ≤ 100 ∧ p ≠ 20 := by
  unfold processVideoForClips
  cases env.transcribeResult with
  | error e =>
    constructor
    · simp
    · intro p hp
      simp at hp
      omega
  | ok u =>
    cases env.analyzeResult with
    | error e =>
      constructor
      · refine pairwise_le_append_pivot _ _ 45 (by simp) (pairwise_le_replicate _ _) ?_ ?_
        · intro x hx; simp at hx; omega
        · intro y hy
          rw [List.eq_of_mem_replicate hy]
          omega
      · intro p hp
        rcases List.mem_append.mp hp with h | h
        · simp at h; omega
        · rw [List.eq_of_mem_replicate h]
          omega
    | ok segs =>
      dsimp only
      set nsel := (aggregate (computeCombined (normalizeEnergy
        (segs.map (attachScores env.energyWindows env.hypeEvents env.sceneTimes)))) n).length
        with hnsel
      have hloop : (clipLoop env dur nsel
          (aggregate (computeCombined (normalizeEnergy
            (segs.map (attachScores env.energyWindows env.hypeEvents env.sceneTimes)))) n)).2 =
          (List.range nsel).map (fun i => clipProgress i nsel) := rfl
      rw [hloop]
      set cw := (List.range nsel).map (fun i => clipProgress i nsel) with hcw
      have h1 : List.Pairwise (· ≤ ·)
          (([10, 40, 45] : List Nat) ++ List.replicate env.analysisChunks 50) := by
        refine pairwise_le_append_pivot _ _ 45 (by simp) (pairwise_le_replicate _ _) ?_ ?_
        · intro x hx; simp at hx; omega
        · intro y hy; rw [List.eq_of_mem_replicate hy]; omega
      have h2 : List.Pairwise (· ≤ ·)
          ((([10, 40, 45] : List Nat) ++ List.replicate env.analysisChunks 50) ++ [60, 65]) := by
        refine pairwise_le_append_pivot _ _ 50 h1 (by simp) ?_ ?_
        · intro x hx
          rcases List.mem_append.mp hx with h | h
          · simp at h; omega
          · rw [List.eq_of_mem_replicate h]
        · intro y hy; simp at hy; omega
      have h3 : List.Pairwise (· ≤ ·)
          (((([10, 40, 45] : List Nat) ++ List.replicate env.analysisChunks 50) ++ [60, 65]) ++ cw) := by
        refine pairwise_le_append_pivot _ _ 65 h2 (clipWs_pairwise nsel) ?_ ?_
        · intro x hx
          rcases List.mem_append.mp hx with h | h
          · rcases List.mem_append.mp h with h' | h'
            · simp at h'; omega
            · rw [List.eq_of_mem_replicate h']; omega
          · simp at h; omega
        · intro y hy; exact (clipWs_bounds nsel y hy).1
      constructor
      · refine pairwise_le_append_pivot _ _ 100 h3 (by simp) ?_ ?_
        · intro x hx
          rcases List.mem_append.mp hx with h | h
          · rcases List.mem_append.mp h with h' | h'
            · rcases List.mem_append.mp h' with h'' | h''
              · simp at h''; omega
              · rw [List.eq_of_mem_replicate h'']; omega
            · simp at h; omega
          · exact le_trans (clipWs_bounds nsel x h).2 (by omega)
        · intro y hy; simp at hy; omega
      · intro p hp
        rcases List.mem_append.mp hp with h | h
        · rcases List.mem_append.mp h with h' | h'
          · rcases List.mem_append.mp h' with h'' | h''
            · rcases List.mem_append.mp h'' with h3 | h3
              · simp at h3; omega
              · rw [List.eq_of_mem_replicate h3]; omega
            · simp at h''; omega
          · have := clipWs_bounds nsel p h'
            omega
        · simp at h; omega

/-- Shape of the trace of progress writes of a full run: a 10, then —
for downloading sources only — a 20, then possibly the processor's
writes, then possibly the success branch's final 100. -/
lemma run_trace_cases (src : Source) (te : TaskEnv) (env : PipelineEnv)
    (n : Nat) (dur : ℚ) (job0 : Job) :
    (src = Source.upload →
      ((processVideoTask src te env n dur job0).2 = [10] ∨
       (processVideoTask src te env n dur job0).2 = 10 :: (processVideoForClips env n dur).2 ∨
       (processVideoTask src te env n dur job0).2 =
         10 :: ((processVideoForClips env n dur).2 ++ [100]))) ∧
    ((processVideoTask src te env n dur job0).2 = [10] ∨
     (processVideoTask src te env n dur job0).2 = 10 :: (processVideoForClips env n dur).2 ∨
     (processVideoTask src te env n dur job0).2 =
       10 :: ((processVideoForClips env n dur).2 ++ [100]) ∨
     (processVideoTask src te env n dur job0).2 = [10, 20] ∨
     (processVideoTask src te env n dur job0).2 = 10 :: 20 :: (processVideoForClips env n dur).2 ∨
     (processVideoTask src te env n dur job0).2 =
       10 :: 20 :: ((processVideoForClips env n dur).2 ++ [100])) := by
  have hafter : ∀ (j : Job) (t : List Nat),
      (afterAcquire te env n dur j t).2 = t ∨
      (afterAcquire te env n dur j t).2 = t ++ (processVideoForClips env n dur).2 ∨
      (afterAcquire te env n dur j t).2 =
        (t ++ (processVideoForClips env n dur).2) ++ [100] := by
    intro j t
    unfold afterAcquire
    by_cases hex : te.videoExists = true
    · simp only [hex, Bool.not_true, Bool.false_eq_true, if_false]
      cases hres : (processVideoForClips env n dur).1 with
      | failure e => simp only [hres]; right; left; trivial
      | success clips =>
        cases hup : te.uploadsResult with
        | error e => simp only [hres, hup]; right; left; trivial
        | ok u => simp only [hres, hup]; right; right; trivial
    · simp only [hex]
      left; rfl
  unfold processVideoTask
  by_cases hinit : te.processorInit = true
  · simp only [hinit, Bool.not_true, Bool.false_eq_true, if_false]
    cases src with
    | upload =>
      by_cases hvid : te.videoIdValid = true
      · simp only [hvid, if_true]
        rcases hafter { job0 with status := JobStatus.processing, progress := 10 } [10]
          with h | h | h
        · exact ⟨fun _ => Or.inl h, Or.inl h⟩
        · exact ⟨fun _ => Or.inr (Or.inl h), Or.inr (Or.inl h)⟩
        · exact ⟨fun _ => Or.inr (Or.inr h), Or.inr (Or.inr (Or.inl h))⟩
      · simp only [hvid, Bool.false_eq_true, if_false]
        exact ⟨fun _ => Or.inl (by trivial), Or.inl (by trivial)⟩
    | youtube =>
      refine ⟨fun h => Source.noConfusion h, ?_⟩
      cases hdl : te.downloadResult with
      | error e => exact Or.inr (Or.inr (Or.inr (Or.inl rfl)))
      | ok u =>
        rcases hafter { job0 with status := JobStatus.processing, progress := 20 } [10, 20]
          with h | h | h
        · exact Or.inr (Or.inr (Or.inr (Or.inl h)))
        · exact Or.inr (Or.inr (Or.inr (Or.inr (Or.inl h))))
        · exact Or.inr (Or.inr (Or.inr (Or.inr (Or.inr h))))
    | kick =>
      refine ⟨fun h => Source.noConfusion h, ?_⟩
      cases hdl : te.downloadResult with
      | error e => exact Or.inr (Or.inr (Or.inr (Or.inl rfl)))
      | ok u =>
        rcases hafter { job0 with status := JobStatus.processing, progress := 20 } [10, 20]
          with h | h | h
        · exact Or.inr (Or.inr (Or.inr (Or.inl h)))
        · exact Or.inr (Or.inr (Or.inr (Or.inr (Or.inl h))))
        · exact Or.inr (Or.inr (Or.inr (Or.inr (Or.inr h))))
    | url =>
      refine ⟨fun h => Source.noConfusion h, ?_⟩
      cases hdl : te.downloadResult with
      | error e => exact Or.inr (Or.inr (Or.inr (Or.inl rfl)))
      | ok u =>
        rcases hafter { job0 with status := JobStatus.processing, progress := 20 } [10, 20]
          with h | h | h
        · exact Or.inr (Or.inr (Or.inr (Or.inl h)))
        · exact Or.inr (Or.inr (Or.inr (Or.inr (Or.inl h))))
        · exact Or.inr (Or.inr (Or.inr (Or.inr (Or.inr h))))
  · simp only [hinit, Bool.not_false, if_true]
    exact ⟨fun _ => Or.inl (by trivial), Or.inl (by trivial)⟩

/-- C4 (counterexample): a job from a downloading source, run to
successful completion, writes the progress sequence
10, 20, 10, 40, 45, 60, 65, 65, 100, 100 — the processor's first
callback resets progress from 20 back to 10, so the sequence of writes
of a non-Failed (indeed Completed) job is not monotonically
non-decreasing. -/
theorem c4_counterexample :
    (processVideoTask Source.youtube
      ⟨true, true, Except.ok (), true, Except.ok ()⟩
      ⟨Except.ok (), Except.ok [{ start := 0, stop := 10, viralityScore := 8 }],
        [], [], [], 0, fun _ => true, fun _ => true, fun _ => "c", fun _ => "p"⟩
      5 30 initialJob).1.status = JobStatus.completed ∧
    (processVideoTask Source.youtube
      ⟨true, true, Except.ok (), true, Except.ok ()⟩
      ⟨Except.ok (), Except.ok [{ start := 0, stop := 10, viralityScore := 8 }],
        [], [], [], 0, fun _ => true, fun _ => true, fun _ => "c", fun _ => "p"⟩
      5 30 initialJob).2 = [10, 20, 10, 40, 45, 60, 65, 65, 100, 100] ∧
    ¬ List.Chain' (· ≤ ·)
      (processVideoTask Source.youtube
        ⟨true, true, Except.ok (), true, Except.ok ()⟩
        ⟨Except.ok (), Except.ok [{ start := 0, stop := 10, viralityScore := 8 }],
          [], [], [], 0, fun _ => true, fun _ => true, fun _ => "c", fun _ => "p"⟩
        5 30 initialJob).2 := by
  refine ⟨by decide, by decide, ?_⟩
  intro hc
  have h2 : (processVideoTask Source.youtube
      ⟨true, true, Except.ok (), true, Except.ok ()⟩
      ⟨Except.ok (), Except.ok [{ start := 0, stop := 10, viralityScore := 8 }],
        [], [], [], 0, fun _ => true, fun _ => true, fun _ => "c", fun _ => "p"⟩
      5 30 initialJob).2 = [10, 20, 10, 40, 45, 60, 65, 65, 100, 100] := by decide
  rw [h2, List.chain'_cons, List.chain'_cons] at hc
  exact absurd hc.2.1 (by omega)

/-- C4 (amended): every job that does not download its source
(`video_source = "upload"`) writes a monotonically non-decreasing
progress sequence; for downloading sources the single download
checkpoint 20 is followed by the transcription callback's 10, and the
write sequence with that 20 removed is monotonically non-decreasing. -/
theorem c4_amended_progress (src : Source) (te : TaskEnv) (env : PipelineEnv)
    (n : Nat) (dur : ℚ) (job0 : Job) :
    (src = Source.upload →
      List.Chain' (· ≤ ·) (processVideoTask src te env n dur job0).2) ∧
    List.Chain' (· ≤ ·)
      ((processVideoTask src te env n dur job0).2.filter (fun p => decide (p ≠ 20))) := by
  obtain ⟨hpw, hbd⟩ := procWrites_props env n dur
  set ws := (processVideoForClips env n dur).2 with hws
  have h10 : List.Pairwise (· ≤ ·) (10 :: ws) :=
    List.pairwise_cons.mpr ⟨fun y hy => (hbd y hy).1, hpw⟩
  have h10T : List.Pairwise (· ≤ ·) ((10 :: ws) ++ [100]) := by
    refine pairwise_le_append_pivot _ _ 100 h10 (by simp) ?_ ?_
    · intro x hx
      rcases List.mem_cons.mp hx with rfl | hx'
      · omega
      · exact le_trans (hbd x hx').2.1 (by omega)
    · intro y hy; simp at hy; omega
  have h10T' : List.Pairwise (· ≤ ·) (10 :: (ws ++ [100])) := by
    have : (10 :: ws) ++ [100] = 10 :: (ws ++ [100]) := rfl
    rw [this] at h10T
    exact h10T
  have hne : ∀ p ∈ 10 :: ws, (p ≠ 20) := by
    intro p hp
    rcases List.mem_cons.mp hp with rfl | hp'
    · omega
    · exact (hbd p hp').2.2
  have hneT : ∀ p ∈ 10 :: (ws ++ [100]), (p ≠ 20) := by
    intro p hp
    rcases List.mem_cons.mp hp with rfl | hp'
    · omega
    · rcases List.mem_append.mp hp' with h | h
      · exact (hbd p h).2.2
      · simp at h; omega
  have hfilterSelf : ∀ (l : List Nat), (∀ p ∈ l, p ≠ 20) →
      l.filter (fun p => decide (p ≠ 20)) = l := by
    intro l hl
    exact List.filter_eq_self.mpr (fun a ha => decide_eq_true (hl a ha))
  have hfilter20 : ∀ (rest : List Nat),
      (10 :: 20 :: rest).filter (fun p => decide (p ≠ 20)) =
        10 :: rest.filter (fun p => decide (p ≠ 20)) := by
    intro rest
    simp [List.filter_cons]
  rcases run_trace_cases src te env n dur job0 with ⟨hup, hall⟩
  constructor
  · intro hsrc
    rcases hup hsrc with h | h | h
    · rw [h]; exact List.chain'_singleton 10
    · rw [h]; exact h10.chain'
    · rw [h]; exact h10T'.chain'
  · rcases hall with h | h | h | h | h | h
    · rw [h]; simp
    · rw [h, hfilterSelf _ hne]; exact h10.chain'
    · rw [h, hfilterSelf _ hneT]; exact h10T'.chain'
    · rw [h]; simp
    · rw [h, hfilter20,
        hfilterSelf _ (fun p hp => (hbd p hp).2.2)]
      have : List.Pairwise (· ≤ ·) (10 :: ws) := h10
      exact this.chain'
    · rw [h, hfilter20]
      have hne' : ∀ p ∈ ws ++ [100], (p ≠ 20) := by
        intro p hp
        rcases List.mem_append.mp hp with h' | h'
        · exact (hbd p h').2.2
        · simp at h'; omega
      rw [hfilterSelf _ hne']
      exact h10T'.chain'

/-- C4 witness: the amended theorem applied to a concrete upload-source
run (no download checkpoint): its write sequence is non-decreasing. -/
theorem c4_amended_progress_witness :
    Source.upload = Source.upload ∧
    List.Chain' (· ≤ ·)
      (processVideoTask Source.upload
        ⟨true, true, Except.ok (), true, Except.ok ()⟩
        ⟨Except.ok (), Except.ok [{ start := 0, stop := 10, viralityScore := 8 }],
          [], [], [], 0, fun _ => true, fun _ => true, fun _ => "c", fun _ => "p"⟩
        5 30 initialJob).2 :=
  ⟨rfl,
   (c4_amended_progress Source.upload
      ⟨true, true, Except.ok (), true, Except.ok ()⟩
      ⟨Except.ok (), Except.ok [{ start := 0, stop := 10, viralityScore := 8 }],
        [], [], [], 0, fun _ => true, fun _ => true, fun _ => "c", fun _ => "p"⟩
      5 30 initialJob).1 rfl⟩

/-- C5 (counterexample): a run in which clip extraction fails for every
(here: the only) selected segment — `generate_clip` raises and the
preview fallback also fails — still ends `Completed` with progress 100
and a null error; the failure is absorbed into a clip record with a
null asset path.  The claim says such a job ends `Failed` with a
non-null error. -/
theorem c5_counterexample :
    (processVideoTask Source.upload
      ⟨true, true, Except.ok (), true, Except.ok ()⟩
      ⟨Except.ok (), Except.ok [{ start := 0, stop := 10, viralityScore := 8 }],
        [], [], [], 0, fun _ => false, fun _ => false, fun _ => "c", fun _ => "p"⟩
      5 30 initialJob).1.status = JobStatus.completed ∧
    (processVideoTask Source.upload
      ⟨true, true, Except.ok (), true, Except.ok ()⟩
      ⟨Except.ok (), Except.ok [{ start := 0, stop := 10, viralityScore := 8 }],
        [], [], [], 0, fun _ => false, fun _ => false, fun _ => "c", fun _ => "p"⟩
      5 30 initialJob).1.progress = 100 ∧
    (processVideoTask Source.upload
      ⟨true, true, Except.ok (), true, Except.ok ()⟩
      ⟨Except.ok (), Except.ok [{ start := 0, stop := 10, viralityScore := 8 }],
        [], [], [], 0, fun _ => false, fun _ => false, fun _ => "c", fun _ => "p"⟩
      5 30 initialJob).1.error = none ∧
    (processVideoTask Source.upload
      ⟨true, true, Except.ok (), true, Except.ok ()⟩
      ⟨Except.ok (), Except.ok [{ start := 0, stop := 10, viralityScore := 8 }],
        [], [], [], 0, fun _ => false, fun _ => false, fun _ => "c", fun _ => "p"⟩
      5 30 initialJob).1.clips.map (·.path) = [none] := by
  refine ⟨by decide, by decide, by decide, by decide⟩

/-- C5 (amended): when clip extraction (and its preview fallback) fails
for every selected segment but the rest of the pipeline succeeds, the
job still ends `Completed` with progress 100 and a null error, and
every produced clip record carries a null asset path; the job ends
`Failed` only when an exception reaches the orchestrator's handler,
which per-clip extraction failures never do (they are absorbed by the
preview-fallback `except`). -/
theorem c5_amended_extraction_swallowed (te : TaskEnv) (env : PipelineEnv)
    (n : Nat) (dur : ℚ) (job0 : Job) (segs : List Seg)
    (hinit : te.processorInit = true) (hvid : te.videoIdValid = true)
    (hex : te.videoExists = true) (hup : te.uploadsResult = Except.ok ())
    (htr : env.transcribeResult = Except.ok ())
    (han : env.analyzeResult = Except.ok segs)
    (hgen : ∀ i, env.clipGenOk i = false) (hprev : ∀ i, env.previewOk i = false)
    (hj0 : job0.error = none) :
    (processVideoTask Source.upload te env n dur job0).1.status = JobStatus.completed ∧
    (processVideoTask Source.upload te env n dur job0).1.progress = 100 ∧
    (processVideoTask Source.upload te env n dur job0).1.error = none ∧
    ∀ c ∈ (processVideoTask Source.upload te env n dur job0).1.clips, c.path = none := by
  unfold processVideoTask
  simp only [hinit, Bool.not_true, Bool.false_eq_true, if_false, hvid, if_true]
  unfold afterAcquire
  simp only [hex, Bool.not_true, Bool.false_eq_true, if_false]
  unfold processVideoForClips
  simp only [htr, han, hup]
  refine ⟨trivial, trivial, ?_, ?_⟩
  · rw [applyWrites_error]
    exact hj0
  · intro c hc
    simp only [clipLoop] at hc
    rcases List.mem_map.mp hc with ⟨p, _, rfl⟩
    simp [hgen, hprev]

/-- C5 witness: the amended theorem applied to a concrete
two-segment run with every clip generation and preview failing. -/
theorem c5_amended_extraction_swallowed_witness :
    (∀ i, ((⟨Except.ok (), Except.ok
        [{ start := 0, stop := 10, viralityScore := 8 },
         { start := 20, stop := 25, viralityScore := 5 }],
        [], [], [], 0, fun _ => false, fun _ => false,
        fun _ => "c", fun _ => "p"⟩ : PipelineEnv)).clipGenOk i = false) ∧
    (processVideoTask Source.upload
      ⟨true, true, Except.ok (), true, Except.ok ()⟩
      ⟨Except.ok (), Except.ok
        [{ start := 0, stop := 10, viralityScore := 8 },
         { start := 20, stop := 25, viralityScore := 5 }],
        [], [], [], 0, fun _ => false, fun _ => false, fun _ => "c", fun _ => "p"⟩
      5 30 initialJob).1.status = JobStatus.completed ∧
    (processVideoTask Source.upload
      ⟨true, true, Except.ok (), true, Except.ok ()⟩
      ⟨Except.ok (), Except.ok
        [{ start := 0, stop := 10, viralityScore := 8 },
         { start := 20, stop := 25, viralityScore := 5 }],
        [], [], [], 0, fun _ => false, fun _ => false, fun _ => "c", fun _ => "p"⟩
      5 30 initialJob).1.error = none ∧
    ∀ c ∈ (processVideoTask Source.upload
      ⟨true, true, Except.ok (), true, Except.ok ()⟩
      ⟨Except.ok (), Except.ok
        [{ start := 0, stop := 10, viralityScore := 8 },
         { start := 20, stop := 25, viralityScore := 5 }],
        [], [], [], 0, fun _ => false, fun _ => false, fun _ => "c", fun _ => "p"⟩
      5 30 initialJob).1.clips, c.path = none := by
  have h := c5_amended_extraction_swallowed
    ⟨true, true, Except.ok (), true, Except.ok ()⟩
    ⟨Except.ok (), Except.ok
      [{ start := 0, stop := 10, viralityScore := 8 },
       { start := 20, stop := 25, viralityScore := 5 }],
      [], [], [], 0, fun _ => false, fun _ => false, fun _ => "c", fun _ => "p"⟩
    5 30 initialJob
    [{ start := 0, stop := 10, viralityScore := 8 },
     { start := 20, stop := 25, viralityScore := 5 }]
    rfl rfl rfl rfl rfl rfl (fun _ => rfl) (fun _ => rfl) rfl
  exact ⟨fun _ => rfl, h.1, h.2.2.1, h.2.2.2⟩

/-- C3 witness: the theorem applied to the single candidate of a
concrete pipeline run. -/
theorem c3_combined_score_witness :
    ∃ s ∈ computeCombined (normalizeEnergy
        ([({ start := 0, stop := 10, viralityScore := 8 } : Seg)].map
          (attachScores [] [] []))),
      s.combinedScore =
        s.viralityScore * (1 + s.energyNorm + (1/2 : ℚ) * s.hypeScore
          + (3/10 : ℚ) * s.sceneProximity) := by
  have hmem :
      ({ start := 0, stop := 10, viralityScore := 8, energyScore := 0, energyNorm := 0,
         hypeScore := 0, sceneProximity := 0,
         combinedScore := (8 : ℚ) * (1 + 0 + (1/2 : ℚ) * 0 + (3/10 : ℚ) * 0) } : Seg) ∈
        computeCombined (normalizeEnergy
          ([({ start := 0, stop := 10, viralityScore := 8 } : Seg)].map
            (attachScores [] [] []))) := List.Mem.head _
  exact ⟨_, hmem, c3_combined_score [] [] [] _ _ hmem⟩

end ClipGen
